import Mathlib

/-!
Shallow embedding of the FAQ bot (`faq_bot_plus.py` / `discord_faq_bot.py`).

External library behaviour (the fuzzy `regex` engine and the spaCy NLP
pipeline) is modelled by oracle parameters:
  * `m : String → Option Nat` — for a fixed utterance, `m pattern` is
    `some e` when `re.search(pattern, utterance, IGNORECASE)` matches with
    `e = sum(match.fuzzy_counts)`, and `none` when it does not match;
  * `gaz : String → List (String × String)` — the spaCy `Matcher` result
    list on the utterance, as (label, span text) pairs in match order;
  * `ents : String → List (String × String)` — `doc.ents` as
    (label_, text) pairs in document order.
Everything else is translated directly from the Python source.
-/

namespace FAQBot

/-! ## ResponseManager (faq_bot_plus.py lines 33-63)

`self.last_response` is a Python dict from entity label to 0/1; it is
modelled as an association list with first-match lookup and
replace-in-place update, matching dict get/set semantics. -/

/-- The alternation state: the `last_response` dict of `ResponseManager`. -/
abbrev RMState := List (String × Nat)

/-- `d.get(k, dflt)` on the Python dict. -/
def dictGetD (d : RMState) (k : String) (dflt : Nat) : Nat :=
  match d.find? (fun p => p.1 == k) with
  | some p => p.2
  | none => dflt

/-- `d.get(k)` / `k in d` view of the dict: the stored value, if any. -/
def dictFind (d : RMState) (k : String) : Option Nat :=
  (d.find? (fun p => p.1 == k)).map Prod.snd

/-- `d[k] = v` on the Python dict: replace the existing binding in place,
or append a fresh one. -/
def dictSet : RMState → String → Nat → RMState
  | [], k, v => [(k, v)]
  | (k', v') :: rest, k, v =>
    if k' = k then (k, v) :: rest else (k', v') :: dictSet rest k v

/-- The `responses` dict literal of `ResponseManager.get_response`,
already combined with `responses.get(entity_label, responses["OTHER"])`:
an unknown label falls back to the `OTHER` template pair. -/
def responseTemplates (entity_label entity_text : String) : List String :=
  if entity_label = "CHARACTER" then
    ["What would you like to know about " ++ entity_text ++ "?",
     "I'm not quite sure about " ++ entity_text ++ ". Can you ask about another character or a different topic?"]
  else if entity_label = "PLACE" then
    ["What would you like to know about the place called " ++ entity_text ++ "?",
     "The place called " ++ entity_text ++ " is beyond my current knowledge. What else can I assist with?"]
  else if entity_label = "EVENT" then
    ["What details are you interested in about the event known as " ++ entity_text ++ "?",
     "I have limited information on the event called " ++ entity_text ++ ". Perhaps inquire about a different event?"]
  else
    ["Sorry, I don’t have information on " ++ entity_text ++ ".",
     "My knowledge about " ++ entity_text ++ " is limited. Feel free to ask another question."]

/-- `ResponseManager.get_response`.  Python list indexing
`responses.get(...)[response_index]` raises `IndexError` when the index is
out of range, modelled as `none`; on success the returned state reflects
`self.last_response[entity_label] = (response_index + 1) % 2`. -/
def get_response (st : RMState) (entity_label entity_text : String) :
    Option (String × RMState) :=
  let response_index := dictGetD st entity_label 0
  match (responseTemplates entity_label entity_text).get? response_index with
  | none => none
  | some response =>
      some (response, dictSet st entity_label ((response_index + 1) % 2))

/-- The state of the module-level `response_manager` at program start:
`self.last_response = {}`. -/
def initRM : RMState := []

/-! ## understand (faq_bot_plus.py lines 109-132) -/

/-- The loop body state of `understand`: `best_match_idx` starts at `-1`,
`best_match_errors` starts at `float('inf')` (modelled as `none`). -/
def understandGo (m : String → Option Nat) :
    Nat → List String → Int → Option Nat → Int
  | _, [], bIdx, _ => bIdx
  | idx, r :: rest, bIdx, bErr =>
    match m r with
    | none => understandGo m (idx + 1) rest bIdx bErr
    | some e =>
      match bErr with
      | none => understandGo m (idx + 1) rest (Int.ofNat idx) (some e)
      | some b =>
        if e < b then understandGo m (idx + 1) rest (Int.ofNat idx) (some e)
        else understandGo m (idx + 1) rest bIdx bErr

/-- `understand(utterance, regex_list)` with the regex engine abstracted:
`m r` is the fuzzy-match result of pattern `r` against the fixed
utterance. Returns the best matching pattern index or `-1`. -/
def understand (m : String → Option Nat) (regexList : List String) : Int :=
  understandGo m 0 regexList (-1) none

/-- Pattern `j` of `l` matches the utterance with `e` total errors. -/
def MatchesAt (m : String → Option Nat) (l : List String) (j e : Nat) : Prop :=
  ∃ p, l.get? j = some p ∧ m p = some e

/-- Index `i` is a matching index of minimal error count `e`, and the
earliest such index (ties on error count go to the lower index). -/
def BestAt (m : String → Option Nat) (l : List String) (i e : Nat) : Prop :=
  MatchesAt m l i e ∧
    ∀ j e', MatchesAt m l j e' → e < e' ∨ (e = e' ∧ i ≤ j)

/-! ## sanitize_text (faq_bot_plus.py lines 134-148)

`text.translate(str.maketrans('', '', string.punctuation))`, then
`' '.join(text.split())`, then `.lower()`.  Characters are handled at the
`List Char` level; `.lower()` is modelled on its ASCII action. -/

/-- `string.punctuation` (ASCII codes 33-47, 58-64, 91-96, 123-126). -/
def punctuation : List Char :=
  ([33, 34, 35, 36, 37, 38, 39, 40, 41, 42, 43, 44, 45, 46, 47,
    58, 59, 60, 61, 62, 63, 64, 91, 92, 93, 94, 95, 96,
    123, 124, 125, 126].map Char.ofNat)

/-- The whitespace characters recognised by Python's `str.split()` and
`str.strip()` (space, tab, newline, carriage return, vertical tab,
form feed). -/
def isPySpace (c : Char) : Bool :=
  c == ' ' || c == '\t' || c == '\n' || c == '\r' ||
    c == Char.ofNat 11 || c == Char.ofNat 12

/-- The 26 ASCII upper/lower case letter pairs. -/
def lowerPairs : List (Char × Char) :=
  [('A', 'a'), ('B', 'b'), ('C', 'c'), ('D', 'd'), ('E', 'e'), ('F', 'f'),
   ('G', 'g'), ('H', 'h'), ('I', 'i'), ('J', 'j'), ('K', 'k'), ('L', 'l'),
   ('M', 'm'), ('N', 'n'), ('O', 'o'), ('P', 'p'), ('Q', 'q'), ('R', 'r'),
   ('S', 's'), ('T', 't'), ('U', 'u'), ('V', 'v'), ('W', 'w'), ('X', 'x'),
   ('Y', 'y'), ('Z', 'z')]

/-- The ASCII uppercase letters. -/
def asciiUppercase : List Char := lowerPairs.map Prod.fst

/-- `str.lower()` restricted to its ASCII action: `A`-`Z` map to
`a`-`z`, every other character is unchanged. -/
def pyToLower (c : Char) : Char :=
  match lowerPairs.find? (fun p => p.1 == c) with
  | some p => p.2
  | none => c

/-- `text.translate(str.maketrans('', '', string.punctuation))`:
delete every punctuation character. -/
def removePunctL (l : List Char) : List Char :=
  l.filter (fun c => !(punctuation.contains c))

/-- `str.split()` (no separator): split on runs of whitespace, never
producing empty words.  `acc` holds the current word reversed. -/
def splitWsAux : List Char → List Char → List (List Char)
  | [], acc => if acc.isEmpty then [] else [acc.reverse]
  | c :: rest, acc =>
    if isPySpace c then
      if acc.isEmpty then splitWsAux rest [] else acc.reverse :: splitWsAux rest []
    else
      splitWsAux rest (c :: acc)

/-- `' '.join(words)`. -/
def joinSpace : List (List Char) → List Char
  | [] => []
  | [w] => w
  | w :: w' :: ws => w ++ ' ' :: joinSpace (w' :: ws)

/-- `sanitize_text` on the character list: remove punctuation, collapse
whitespace via split/join, lowercase. -/
def sanitizeL (l : List Char) : List Char :=
  (joinSpace (splitWsAux (removePunctL l) [])).map pyToLower

/-- `sanitize_text(text)` (identical in both source files). -/
def sanitize_text (s : String) : String := ⟨sanitizeL s.data⟩

/-! ## Knowledge base loaders (faq_bot_plus.py lines 72-107)

File contents are modelled as the list of raw lines that `readlines()`
yields; each loader maps `str.strip()` over them. -/

/-- `str.strip()` on the character list: drop leading and trailing
whitespace. -/
def stripL (l : List Char) : List Char :=
  ((l.dropWhile isPySpace).reverse.dropWhile isPySpace).reverse

/-- `line.strip()`. -/
def pyStrip (s : String) : String := ⟨stripL s.data⟩

/-- `[line.strip() for line in f.readlines()]`. -/
def load_lines (lines : List String) : List String := lines.map pyStrip

/-- `load_FAQ_data()` applied to the raw lines of `questions.txt` and
`answers.txt`. -/
def load_FAQ_data (qlines alines : List String) : List String × List String :=
  (load_lines qlines, load_lines alines)

/-- `load_fuzzy_regex_patterns()` applied to the raw lines of
`regex.txt`. -/
def load_fuzzy_regex_patterns (rlines : List String) : List String :=
  load_lines rlines

/-! ## analyze_utterance and generate (faq_bot_plus.py lines 150-193) -/

/-- The label list `["PERSON", "GPE", "LOC", "ORG"]` of
`analyze_utterance`. -/
def nerLabels : List String := ["PERSON", "GPE", "LOC", "ORG"]

/-- `analyze_utterance(utterance)` with spaCy abstracted: `gaz` is the
`Matcher` result (label, span text list), `ents` the `doc.ents`
(label_, text) list.  The first matcher hit returns immediately; else the
first entity whose label is in `nerLabels` is answered under `OTHER`;
else the fixed clarification prompt.  The mutable `response_manager`
state is passed and returned explicitly. -/
def analyze_utterance (gaz ents : String → List (String × String))
    (st : RMState) (utterance : String) : Option (String × RMState) :=
  match gaz utterance with
  | (label, text) :: _ => get_response st label text
  | [] =>
    match (ents utterance).find? (fun e => nerLabels.contains e.1) with
    | some e => get_response st "OTHER" e.2
    | none =>
      some ("Can you please rephrase your question or ask about something else?", st)

/-- Python list indexing `l[i]`: non-negative indices from the front,
negative indices from the back, `IndexError` (`none`) otherwise. -/
def pyIndex (l : List String) (i : Int) : Option String :=
  if 0 ≤ i then l.get? i.toNat
  else if 0 ≤ (l.length : Int) + i then l.get? ((l.length : Int) + i).toNat
  else none

/-- `generate(intent, questions, answers, utterance)`.  `answers[intent]`
may raise `IndexError`, modelled as `none`; a successful canned answer
leaves the alternation state unchanged. -/
def generate (gaz ents : String → List (String × String)) (st : RMState)
    (intent : Int) (questions answers : List String) (utterance : String) :
    Option (String × RMState) :=
  if intent = -1 then analyze_utterance gaz ents st utterance
  else (pyIndex answers intent).map (fun a => (a, st))

/-- One pipeline turn of `main` past the greeting special cases:
`understand(utterance, regex_list)` then
`generate(intent, questions, responses, utterance)`, both on the raw
(unsanitized) utterance. -/
def handle_turn (m : String → String → Option Nat)
    (gaz ents : String → List (String × String)) (st : RMState)
    (questions answers regexList : List String) (utterance : String) :
    Option (String × RMState) :=
  generate gaz ents st (understand (fun p => m p utterance) regexList)
    questions answers utterance

/-! ## Specification-side predicates -/

/-- A word produced by `str.split()`: non-empty and free of whitespace. -/
def IsWord (w : List Char) : Prop := w ≠ [] ∧ ∀ c ∈ w, isPySpace c = false

/-- A string with no leading and no trailing whitespace. -/
def Trimmed (s : String) : Prop :=
  (∀ c, s.data.head? = some c → isPySpace c = false) ∧
    (∀ c, s.data.getLast? = some c → isPySpace c = false)

/-- What a loader actually produces from raw lines: one entry per line
(blank lines included), each the `strip()` of its line, order preserved,
every entry trimmed. -/
def LoadSpec (src out : List String) : Prop :=
  out.length = src.length ∧
    (∀ i, out.get? i = (src.get? i).map pyStrip) ∧
    ∀ s ∈ out, Trimmed s

/-- Every alternation index stored in the state is 0 or 1; this holds for
every state the running program can reach (`(i + 1) % 2 ≤ 1`). -/
def WFState (st : RMState) : Prop := ∀ kv ∈ st, kv.2 ≤ 1

/-! ## Characterization of understand -/

theorem matchesAt_cons_succ {m : String → Option Nat} {r : String}
    {rest : List String} {j e : Nat} :
    MatchesAt m (r :: rest) (j + 1) e ↔ MatchesAt m rest j e := by
  simp [MatchesAt]

theorem matchesAt_cons_zero {m : String → Option Nat} {r : String}
    {rest : List String} {e : Nat} :
    MatchesAt m (r :: rest) 0 e ↔ m r = some e := by
  simp [MatchesAt]

theorem understandGo_some_char (m : String → Option Nat) (l : List String) :
    ∀ (idx i0 e0 : Nat),
      (understandGo m idx l (Int.ofNat i0) (some e0) = Int.ofNat i0 ∧
        ∀ j e', MatchesAt m l j e' → e0 ≤ e') ∨
      (∃ i e, understandGo m idx l (Int.ofNat i0) (some e0) = Int.ofNat (idx + i) ∧
        e < e0 ∧ BestAt m l i e) := by
  induction l with
  | nil =>
    intro idx i0 e0
    left
    refine ⟨rfl, ?_⟩
    rintro j e' ⟨p, hp, -⟩
    simp at hp
  | cons r rest ih =>
    intro idx i0 e0
    rcases hm : m r with - | e
    · simp only [understandGo, hm]
      rcases ih (idx + 1) i0 e0 with ⟨hres, hall⟩ | ⟨i, e, hres, hlt, hbest⟩
      · left
        refine ⟨hres, ?_⟩
        intro j e' hj
        match j with
        | 0 =>
          rw [matchesAt_cons_zero, hm] at hj
          exact absurd hj (by simp)
        | j + 1 => exact hall j e' (matchesAt_cons_succ.mp hj)
      · right
        have harith : idx + 1 + i = idx + (i + 1) := by omega
        refine ⟨i + 1, e, by rw [hres, harith], hlt, matchesAt_cons_succ.mpr hbest.1, ?_⟩
        intro j e' hj
        match j with
        | 0 =>
          rw [matchesAt_cons_zero, hm] at hj
          exact absurd hj (by simp)
        | j + 1 =>
          rcases hbest.2 j e' (matchesAt_cons_succ.mp hj) with h | ⟨heq, hle⟩
          · exact Or.inl h
          · exact Or.inr ⟨heq, by omega⟩
    · simp only [understandGo, hm]
      by_cases he : e < e0
      · rw [if_pos he]
        rcases ih (idx + 1) idx e with ⟨hres, hall⟩ | ⟨i, e', hres, hlt, hbest⟩
        · right
          refine ⟨0, e, by rw [hres]; rfl, he, matchesAt_cons_zero.mpr hm, ?_⟩
          intro j e' hj
          match j with
          | 0 =>
            rw [matchesAt_cons_zero, hm] at hj
            obtain rfl : e = e' := by injection hj
            exact Or.inr ⟨rfl, Nat.zero_le _⟩
          | j + 1 =>
            rcases Nat.eq_or_lt_of_le (hall j e' (matchesAt_cons_succ.mp hj)) with
              heq | hlt'
            · exact Or.inr ⟨heq, by omega⟩
            · exact Or.inl hlt'
        · right
          have harith : idx + 1 + i = idx + (i + 1) := by omega
          refine ⟨i + 1, e', by rw [hres, harith], Nat.lt_trans hlt he,
            matchesAt_cons_succ.mpr hbest.1, ?_⟩
          intro j e'' hj
          match j with
          | 0 =>
            rw [matchesAt_cons_zero, hm] at hj
            obtain rfl : e = e'' := by injection hj
            exact Or.inl hlt
          | j + 1 =>
            rcases hbest.2 j e'' (matchesAt_cons_succ.mp hj) with h | ⟨heq, hle⟩
            · exact Or.inl h
            · exact Or.inr ⟨heq, by omega⟩
      · rw [if_neg he]
        rcases ih (idx + 1) i0 e0 with ⟨hres, hall⟩ | ⟨i, e', hres, hlt, hbest⟩
        · left
          refine ⟨hres, ?_⟩
          intro j e' hj
          match j with
          | 0 =>
            rw [matchesAt_cons_zero, hm] at hj
            obtain rfl : e = e' := by injection hj
            exact Nat.le_of_not_lt he
          | j + 1 => exact hall j e' (matchesAt_cons_succ.mp hj)
        · right
          have harith : idx + 1 + i = idx + (i + 1) := by omega
          refine ⟨i + 1, e', by rw [hres, harith], hlt,
            matchesAt_cons_succ.mpr hbest.1, ?_⟩
          intro j e'' hj
          match j with
          | 0 =>
            rw [matchesAt_cons_zero, hm] at hj
            obtain rfl : e = e'' := by injection hj
            exact Or.inl (Nat.lt_of_lt_of_le hlt (Nat.le_of_not_lt he))
          | j + 1 =>
            rcases hbest.2 j e'' (matchesAt_cons_succ.mp hj) with h | ⟨heq, hle⟩
            · exact Or.inl h
            · exact Or.inr ⟨heq, by omega⟩

theorem understandGo_none_char (m : String → Option Nat) (l : List String) :
    ∀ idx : Nat,
      (understandGo m idx l (-1) none = -1 ∧ ∀ j e, ¬ MatchesAt m l j e) ∨
      (∃ i e, understandGo m idx l (-1) none = Int.ofNat (idx + i) ∧ BestAt m l i e) := by
  induction l with
  | nil =>
    intro idx
    left
    refine ⟨rfl, ?_⟩
    rintro j e ⟨p, hp, -⟩
    simp at hp
  | cons r rest ih =>
    intro idx
    rcases hm : m r with - | e
    · simp only [understandGo, hm]
      rcases ih (idx + 1) with ⟨hres, hall⟩ | ⟨i, e, hres, hbest⟩
      · left
        refine ⟨hres, ?_⟩
        intro j e hj
        match j with
        | 0 =>
          rw [matchesAt_cons_zero, hm] at hj
          exact absurd hj (by simp)
        | j + 1 => exact hall j e (matchesAt_cons_succ.mp hj)
      · right
        have harith : idx + 1 + i = idx + (i + 1) := by omega
        refine ⟨i + 1, e, by rw [hres, harith], matchesAt_cons_succ.mpr hbest.1, ?_⟩
        intro j e' hj
        match j with
        | 0 =>
          rw [matchesAt_cons_zero, hm] at hj
          exact absurd hj (by simp)
        | j + 1 =>
          rcases hbest.2 j e' (matchesAt_cons_succ.mp hj) with h | ⟨heq, hle⟩
          · exact Or.inl h
          · exact Or.inr ⟨heq, by omega⟩
    · simp only [understandGo, hm]
      rcases understandGo_some_char m rest (idx + 1) idx e with
        ⟨hres, hall⟩ | ⟨i, e', hres, hlt, hbest⟩
      · right
        refine ⟨0, e, by rw [hres]; rfl, matchesAt_cons_zero.mpr hm, ?_⟩
        intro j e' hj
        match j with
        | 0 =>
          rw [matchesAt_cons_zero, hm] at hj
          obtain rfl : e = e' := by injection hj
          exact Or.inr ⟨rfl, Nat.zero_le _⟩
        | j + 1 =>
          rcases Nat.eq_or_lt_of_le (hall j e' (matchesAt_cons_succ.mp hj)) with
            heq | hlt'
          · exact Or.inr ⟨heq, by omega⟩
          · exact Or.inl hlt'
      · right
        have harith : idx + 1 + i = idx + (i + 1) := by omega
        refine ⟨i + 1, e', by rw [hres, harith], matchesAt_cons_succ.mpr hbest.1, ?_⟩
        intro j e'' hj
        match j with
        | 0 =>
          rw [matchesAt_cons_zero, hm] at hj
          obtain rfl : e = e'' := by injection hj
          exact Or.inl hlt
        | j + 1 =>
          rcases hbest.2 j e'' (matchesAt_cons_succ.mp hj) with h | ⟨heq, hle⟩
          · exact Or.inl h
          · exact Or.inr ⟨heq, by omega⟩

theorem understand_char (m : String → Option Nat) (l : List String) :
    (understand m l = -1 ∧ ∀ j e, ¬ MatchesAt m l j e) ∨
    (∃ i e, understand m l = Int.ofNat i ∧ BestAt m l i e) := by
  rcases understandGo_none_char m l 0 with h | ⟨i, e, hres, hbest⟩
  · exact Or.inl h
  · exact Or.inr ⟨i, e, by rw [understand, hres]; simp, hbest⟩

theorem no_matchesAt_iff (m : String → Option Nat) (l : List String) :
    (∀ j e, ¬ MatchesAt m l j e) ↔ ∀ p ∈ l, m p = none := by
  constructor
  · intro h p hp
    obtain ⟨j, hj⟩ := List.mem_iff_get?.mp hp
    rcases he : m p with - | e
    · rfl
    · exact absurd ⟨p, hj, he⟩ (h j e)
  · rintro h j e ⟨p, hp, he⟩
    rw [h p (List.get?_mem hp)] at he
    exact absurd he (by simp)

/-! ## Claim theorems: understand -/

/-- Claim C1: for every utterance and fuzzy pattern list, `understand`
returns `-1` exactly when no pattern matches (in particular on the empty
list, where the first conjunct applies vacuously); and whenever some
pattern matches, it returns an index of a matching pattern whose total
error count is minimal over all matching patterns, the earliest such
index on ties (strict less-than comparison). -/
theorem understand_spec (m : String → Option Nat) (l : List String) :
    ((∀ p ∈ l, m p = none) → understand m l = -1) ∧
    (understand m l = -1 → ∀ p ∈ l, m p = none) ∧
    ((∃ j e, MatchesAt m l j e) → ∃ i e, understand m l = Int.ofNat i ∧ BestAt m l i e) := by
  refine ⟨?_, ?_, ?_⟩
  · intro h
    rcases understand_char m l with ⟨hres, -⟩ | ⟨i, e, -, hbest, -⟩
    · exact hres
    · exact absurd hbest ((no_matchesAt_iff m l).mpr h i e)
  · intro hres
    rcases understand_char m l with ⟨-, hnone⟩ | ⟨i, e, hres', -⟩
    · exact (no_matchesAt_iff m l).mp hnone
    · rw [hres'] at hres
      exact absurd hres (by simp [Int.ofNat_eq_coe])
  · rintro ⟨j, e, hj⟩
    rcases understand_char m l with ⟨-, hnone⟩ | h
    · exact absurd hj (hnone j e)
    · exact h

theorem understand_spec_witness :
    understand (fun _ => none) ["a"] = -1 ∧
    (∃ i e, understand (fun p => if p = "a" then some 1 else some 0) ["a", "b"] =
        Int.ofNat i ∧
      BestAt (fun p => if p = "a" then some 1 else some 0) ["a", "b"] i e) :=
  ⟨(understand_spec (fun _ => none) ["a"]).1 (fun _ _ => rfl),
    (understand_spec (fun p => if p = "a" then some 1 else some 0) ["a", "b"]).2.2
      ⟨0, 1, "a", rfl, by simp⟩⟩

/-- Claim C10: the result of `understand` is either `-1` or a valid index
into the pattern list it was given. -/
theorem understand_result_range (m : String → Option Nat) (l : List String) :
    understand m l = -1 ∨ ∃ i, understand m l = Int.ofNat i ∧ i < l.length := by
  rcases understandGo_none_char m l 0 with ⟨hres, -⟩ | ⟨i, e, hres, ⟨p, hp, -⟩, -⟩
  · exact Or.inl hres
  · refine Or.inr ⟨i, by rw [understand, hres]; simp, ?_⟩
    exact List.get?_eq_some.mp hp |>.1

/-! ## ResponseManager lemmas -/

theorem responseTemplates_length (label text : String) :
    (responseTemplates label text).length = 2 := by
  unfold responseTemplates
  split_ifs <;> rfl

theorem get_response_eq (st : RMState) (label text r : String)
    (h : (responseTemplates label text).get? (dictGetD st label 0) = some r) :
    get_response st label text =
      some (r, dictSet st label ((dictGetD st label 0 + 1) % 2)) := by
  simp only [get_response]
  rw [h]

theorem dictGetD_nil (k : String) (d : Nat) : dictGetD [] k d = d := rfl

theorem dictGetD_single (label : String) (v d : Nat) :
    dictGetD [(label, v)] label d = v := by
  simp [dictGetD, List.find?]

theorem dictFind_dictSet_ne (st : RMState) (label : String) (v : Nat)
    (k : String) (hk : k ≠ label) :
    dictFind (dictSet st label v) k = dictFind st k := by
  induction st with
  | nil =>
    simp only [dictSet, dictFind]
    rw [List.find?_cons_of_neg _ (by simp [Ne.symm hk])]
  | cons p rest ih =>
    obtain ⟨k', v'⟩ := p
    simp only [dictSet]
    by_cases hp : k' = label
    · subst hp
      rw [if_pos rfl]
      simp only [dictFind]
      rw [List.find?_cons_of_neg _ (by simp [Ne.symm hk]),
        List.find?_cons_of_neg _ (by simp [Ne.symm hk])]
    · rw [if_neg hp]
      by_cases hpk : k' = k
      · subst hpk
        simp only [dictFind]
        rw [List.find?_cons_of_pos _ (by simp), List.find?_cons_of_pos _ (by simp)]
      · simp only [dictFind]
        rw [List.find?_cons_of_neg _ (by simp [hpk]),
          List.find?_cons_of_neg _ (by simp [hpk])]
        exact ih

theorem dictGetD_le_one (st : RMState) (label : String) (h : WFState st) :
    dictGetD st label 0 ≤ 1 := by
  unfold dictGetD
  split
  · rename_i p hf
    exact h p (List.mem_of_find?_eq_some hf)
  · exact Nat.zero_le 1

theorem get_response_total (st : RMState) (label text : String) (h : WFState st) :
    ∃ r st', get_response st label text = some (r, st') := by
  have hidx : dictGetD st label 0 < (responseTemplates label text).length := by
    rw [responseTemplates_length]
    exact Nat.lt_succ_of_le (dictGetD_le_one st label h)
  obtain ⟨r, hr⟩ : ∃ r, (responseTemplates label text).get? (dictGetD st label 0) = some r := by
    rw [List.get?_eq_get hidx]
    exact ⟨_, rfl⟩
  exact ⟨r, _, get_response_eq st label text r hr⟩

theorem analyze_utterance_total (gaz ents : String → List (String × String))
    (st : RMState) (u : String) (h : WFState st) :
    ∃ r st', analyze_utterance gaz ents st u = some (r, st') := by
  unfold analyze_utterance
  split
  · exact get_response_total st _ _ h
  · split
    · exact get_response_total st "OTHER" _ h
    · exact ⟨_, st, rfl⟩

/-! ## Claim theorems: ResponseManager, analyze_utterance, generate -/

/-- Claim C2: from the program's initial alternation state, three
successive `get_response` calls for one category return template
variant 0, then variant 1, then variant 0 again; the variant sequence
depends only on the category `label`, not on the matched texts
`t1`, `t2`, `t3`. -/
theorem get_response_alternation (label t1 t2 t3 : String) :
    ∃ r1 r2 r3 s1 s2 s3,
      get_response initRM label t1 = some (r1, s1) ∧
      get_response s1 label t2 = some (r2, s2) ∧
      get_response s2 label t3 = some (r3, s3) ∧
      (responseTemplates label t1).get? 0 = some r1 ∧
      (responseTemplates label t2).get? 1 = some r2 ∧
      (responseTemplates label t3).get? 0 = some r3 := by
  obtain ⟨r1, hr1⟩ : ∃ r, (responseTemplates label t1).get? 0 = some r := by
    rw [List.get?_eq_get (by rw [responseTemplates_length]; omega)]
    exact ⟨_, rfl⟩
  obtain ⟨r2, hr2⟩ : ∃ r, (responseTemplates label t2).get? 1 = some r := by
    rw [List.get?_eq_get (by rw [responseTemplates_length]; omega)]
    exact ⟨_, rfl⟩
  obtain ⟨r3, hr3⟩ : ∃ r, (responseTemplates label t3).get? 0 = some r := by
    rw [List.get?_eq_get (by rw [responseTemplates_length]; omega)]
    exact ⟨_, rfl⟩
  have h1 : get_response initRM label t1 = some (r1, [(label, 1)]) := by
    have := get_response_eq initRM label t1 r1 (by exact hr1)
    simpa [initRM, dictGetD, List.find?, dictSet] using this
  have h2 : get_response [(label, 1)] label t2 = some (r2, [(label, 0)]) := by
    have := get_response_eq [(label, 1)] label t2 r2 (by rw [dictGetD_single]; exact hr2)
    simpa [dictGetD_single, dictSet] using this
  have h3 : get_response [(label, 0)] label t3 = some (r3, [(label, 1)]) := by
    have := get_response_eq [(label, 0)] label t3 r3 (by rw [dictGetD_single]; exact hr3)
    simpa [dictGetD_single, dictSet] using this
  exact ⟨r1, r2, r3, [(label, 1)], [(label, 0)], [(label, 1)], h1, h2, h3, hr1, hr2, hr3⟩

/-- Claim C9: a `get_response` call for one category changes no other
category's stored alternation index (nor creates one). -/
theorem get_response_frame (st : RMState) (label text r : String) (st' : RMState)
    (h : get_response st label text = some (r, st'))
    (k : String) (hk : k ≠ label) : dictFind st' k = dictFind st k := by
  simp only [get_response] at h
  rcases hg : (responseTemplates label text).get? (dictGetD st label 0) with - | resp
  · rw [hg] at h
    exact absurd h (by simp)
  · rw [hg] at h
    simp only [Option.some.injEq, Prod.mk.injEq] at h
    obtain ⟨-, rfl⟩ := h
    exact dictFind_dictSet_ne st label _ k hk

theorem get_response_frame_witness :
    dictFind [("CHARACTER", 1)] "PLACE" = dictFind initRM "PLACE" :=
  get_response_frame initRM "CHARACTER" "Adam"
    "What would you like to know about Adam?" [("CHARACTER", 1)]
    (by decide) "PLACE" (by decide)

/-- Claim C8: when the gazetteer matcher finds nothing and no recognized
entity has a PERSON/GPE/LOC/ORG label, `analyze_utterance` returns
exactly the fixed clarification prompt and leaves the alternation state
unchanged. -/
theorem analyze_utterance_no_entity (gaz ents : String → List (String × String))
    (st : RMState) (u : String) (h1 : gaz u = [])
    (h2 : ∀ e ∈ ents u, nerLabels.contains e.1 = false) :
    analyze_utterance gaz ents st u =
      some ("Can you please rephrase your question or ask about something else?", st) := by
  have hf : (ents u).find? (fun e => nerLabels.contains e.1) = none :=
    List.find?_eq_none.mpr (by intro e he; rw [h2 e he]; simp)
  unfold analyze_utterance
  rw [h1, hf]

theorem analyze_utterance_no_entity_witness :
    analyze_utterance (fun _ => []) (fun _ => []) initRM "xyzzy" =
      some ("Can you please rephrase your question or ask about something else?", initRM) :=
  analyze_utterance_no_entity (fun _ => []) (fun _ => []) initRM "xyzzy" rfl
    (by intro e he; simp at he)

/-- Claim C3: when the match index is a stored-answer index, `generate`
returns the answer at that index verbatim with the alternation state
untouched (the error count plays no role); when the index is `-1`, it
returns exactly the fallback analysis of the original utterance. -/
theorem generate_spec (gaz ents : String → List (String × String)) (st : RMState)
    (intent : Int) (questions answers : List String) (utterance : String) :
    (∀ i : Nat, intent = Int.ofNat i → ∀ a, answers.get? i = some a →
      generate gaz ents st intent questions answers utterance = some (a, st)) ∧
    (intent = -1 →
      generate gaz ents st intent questions answers utterance =
        analyze_utterance gaz ents st utterance) := by
  constructor
  · rintro i rfl a ha
    rw [generate, if_neg (by simp [Int.ofNat_eq_coe])]
    have ha' : answers[i]? = some a := by simpa using ha
    simp [pyIndex, Int.ofNat_eq_coe, ha']
  · intro h
    rw [generate, if_pos h]

theorem generate_spec_witness :
    generate (fun _ => []) (fun _ => []) initRM 0 ["q1"] ["a1"] "q1" =
      some ("a1", initRM) :=
  (generate_spec (fun _ => []) (fun _ => []) initRM 0 ["q1"] ["a1"] "q1").1 0 rfl "a1" rfl

/-! ## Claim theorems: pipeline totality (C4) -/

/-- Claim C4 counterexample: with a single always-matching pattern and an
empty answers list (pattern list longer than the answers list), the
understand-then-generate pipeline evaluates `answers[0]`, which raises
`IndexError` (modelled as `none`): it does not produce a response
string. -/
theorem handle_turn_index_error :
    handle_turn (fun _ _ => some 0) (fun _ => []) (fun _ => []) initRM
      [] [] ["a"] "any utterance" = none := rfl

/-- Claim C4 (amended): the understand-then-generate pipeline always
produces a response string provided every pattern index is a valid
answers index (the pattern list is no longer than the answers list) and
the alternation state is reachable (stored indices are 0 or 1); when the
pattern list is longer than the answers list the indexing can fail, as
the counterexample shows. -/
theorem handle_turn_total (m : String → String → Option Nat)
    (gaz ents : String → List (String × String)) (st : RMState)
    (questions answers regexList : List String) (u : String)
    (hlen : regexList.length ≤ answers.length) (hst : WFState st) :
    ∃ r st', handle_turn m gaz ents st questions answers regexList u =
      some (r, st') := by
  unfold handle_turn
  rcases understandGo_none_char (fun p => m p u) regexList 0 with
    ⟨hres, -⟩ | ⟨i, e, hres, ⟨⟨p, hp, -⟩, -⟩⟩
  · rw [show understand (fun p => m p u) regexList = -1 from hres]
    rw [generate, if_pos rfl]
    exact analyze_utterance_total gaz ents st u hst
  · have hres' : understand (fun p => m p u) regexList = Int.ofNat i := by
      rw [understand, hres]
      simp
    rw [hres', generate, if_neg (by simp [Int.ofNat_eq_coe])]
    have hi : i < regexList.length := (List.get?_eq_some.mp hp).1
    obtain ⟨a, ha⟩ : ∃ a, answers.get? i = some a := by
      rw [List.get?_eq_get (lt_of_lt_of_le hi hlen)]
      exact ⟨_, rfl⟩
    have ha' : answers[i]? = some a := by simpa using ha
    exact ⟨a, st, by simp [pyIndex, Int.ofNat_eq_coe, ha']⟩

theorem handle_turn_total_witness :
    ∃ r st', handle_turn (fun _ _ => none) (fun _ => []) (fun _ => []) initRM
      [] [] [] "hi" = some (r, st') :=
  handle_turn_total (fun _ _ => none) (fun _ => []) (fun _ => []) initRM
    [] [] [] "hi" (Nat.le_refl 0) (by intro kv hkv; simp [initRM] at hkv)

/-! ## Claim theorems: knowledge base loaders (C5) -/

/-- Claim C5 counterexample: a blank line is not ignored — `strip()` maps
it to the empty string, which is kept as an entry, so a three-line source
with one blank line yields three entries, one of them `""`. -/
theorem load_blank_line_ce :
    load_fuzzy_regex_patterns ["a", "", "b"] = ["a", "", "b"] ∧
      "" ∈ load_fuzzy_regex_patterns ["a", "", "b"] := by
  refine ⟨rfl, ?_⟩
  rw [show load_fuzzy_regex_patterns ["a", "", "b"] = ["a", "", "b"] from rfl]
  simp

theorem head?_dropWhile_isPySpace (l : List Char) (c : Char)
    (h : (l.dropWhile isPySpace).head? = some c) : isPySpace c = false := by
  induction l with
  | nil => simp at h
  | cons a rest ih =>
    by_cases ha : isPySpace a = true
    · rw [List.dropWhile_cons_of_pos ha] at h
      exact ih h
    · rw [List.dropWhile_cons_of_neg ha] at h
      simp only [List.head?_cons, Option.some.injEq] at h
      subst h
      exact Bool.eq_false_iff.mpr ha

theorem getLast?_dropWhile_of_ne_nil (p : Char → Bool) (l : List Char)
    (h : l.dropWhile p ≠ []) : (l.dropWhile p).getLast? = l.getLast? := by
  induction l with
  | nil => simp at h
  | cons a rest ih =>
    by_cases ha : p a = true
    · rw [List.dropWhile_cons_of_pos ha] at h ⊢
      rw [ih h]
      have hrest : rest ≠ [] := by
        intro hr
        rw [hr] at h
        simp at h
      cases rest with
      | nil => exact absurd rfl hrest
      | cons b rs => rw [List.getLast?_cons_cons]
    · rw [List.dropWhile_cons_of_neg ha]

theorem pyStrip_trimmed (s : String) : Trimmed (pyStrip s) := by
  constructor
  · intro c hc
    have hc' : ((s.data.dropWhile isPySpace).reverse.dropWhile isPySpace).getLast? =
        some c := by
      simpa [pyStrip, stripL, List.head?_reverse] using hc
    have hne : (s.data.dropWhile isPySpace).reverse.dropWhile isPySpace ≠ [] := by
      intro h0
      rw [h0] at hc'
      simp at hc'
    rw [getLast?_dropWhile_of_ne_nil _ _ hne, List.getLast?_reverse] at hc'
    exact head?_dropWhile_isPySpace _ c hc'
  · intro c hc
    have hc' : ((s.data.dropWhile isPySpace).reverse.dropWhile isPySpace).head? =
        some c := by
      simpa [pyStrip, stripL, List.getLast?_reverse] using hc
    exact head?_dropWhile_isPySpace _ c hc'

/-- Claim C5 (amended): each loader yields exactly one entry per line of
its source — blank lines included, each contributing an empty entry —
with every entry the whitespace-trim of its line and source order
preserved. -/
theorem loaders_spec (qlines alines rlines : List String) :
    LoadSpec qlines (load_FAQ_data qlines alines).1 ∧
    LoadSpec alines (load_FAQ_data qlines alines).2 ∧
    LoadSpec rlines (load_fuzzy_regex_patterns rlines) := by
  have key : ∀ src : List String, LoadSpec src (load_lines src) := by
    intro src
    refine ⟨by simp [load_lines], ?_, ?_⟩
    · intro i
      simp [load_lines, List.get?_map]
    · intro s hs
      obtain ⟨t, -, rfl⟩ := List.mem_map.mp hs
      exact pyStrip_trimmed t
  exact ⟨key qlines, key alines, key rlines⟩

theorem loaders_spec_witness :
    (load_fuzzy_regex_patterns [" x "]).get? 0 =
      (([" x "] : List String).get? 0).map pyStrip :=
  ((loaders_spec [] [] [" x "]).2.2).2.1 0

/-! ## sanitize_text: character-level lemmas -/

theorem lowerPairs_facts :
    ∀ p ∈ lowerPairs,
      isPySpace p.1 = false ∧ isPySpace p.2 = false ∧
      punctuation.contains p.1 = false ∧ punctuation.contains p.2 = false ∧
      p.2 ∉ asciiUppercase ∧
      lowerPairs.find? (fun q => q.1 == p.2) = none := by
  decide

theorem pyToLower_of_find?_none {c : Char}
    (hf : lowerPairs.find? (fun q => q.1 == c) = none) : pyToLower c = c := by
  unfold pyToLower
  rw [hf]

theorem pyToLower_of_find?_some {c : Char} {p : Char × Char}
    (hf : lowerPairs.find? (fun q => q.1 == c) = some p) : pyToLower c = p.2 := by
  unfold pyToLower
  rw [hf]

theorem pyToLower_isPySpace (c : Char) : isPySpace (pyToLower c) = isPySpace c := by
  rcases hf : lowerPairs.find? (fun q => q.1 == c) with - | p
  · rw [pyToLower_of_find?_none hf]
  · rw [pyToLower_of_find?_some hf]
    have hp := lowerPairs_facts p (List.mem_of_find?_eq_some hf)
    have hc : p.1 = c := by simpa using List.find?_some hf
    rw [hp.2.1, ← hc, hp.1]

theorem pyToLower_punct (c : Char) (h : punctuation.contains c = false) :
    punctuation.contains (pyToLower c) = false := by
  rcases hf : lowerPairs.find? (fun q => q.1 == c) with - | p
  · rw [pyToLower_of_find?_none hf]
    exact h
  · rw [pyToLower_of_find?_some hf]
    exact (lowerPairs_facts p (List.mem_of_find?_eq_some hf)).2.2.2.1

theorem pyToLower_notUpper (c : Char) : pyToLower c ∉ asciiUppercase := by
  rcases hf : lowerPairs.find? (fun q => q.1 == c) with - | p
  · rw [pyToLower_of_find?_none hf]
    intro hc
    obtain ⟨p, hp, hp1⟩ := List.mem_map.mp hc
    have := List.find?_eq_none.mp hf p hp
    simp [hp1] at this
  · rw [pyToLower_of_find?_some hf]
    exact (lowerPairs_facts p (List.mem_of_find?_eq_some hf)).2.2.2.2.1

theorem pyToLower_idem (c : Char) : pyToLower (pyToLower c) = pyToLower c := by
  rcases hf : lowerPairs.find? (fun q => q.1 == c) with - | p
  · rw [pyToLower_of_find?_none hf, pyToLower_of_find?_none hf]
  · rw [pyToLower_of_find?_some hf,
      pyToLower_of_find?_none (lowerPairs_facts p (List.mem_of_find?_eq_some hf)).2.2.2.2.2]

theorem pyToLower_space : pyToLower ' ' = ' ' := by decide

theorem map_id_of_fixed {f : Char → Char} :
    ∀ {l : List Char}, (∀ c ∈ l, f c = c) → l.map f = l
  | [], _ => rfl
  | c :: l, h => by
    rw [List.map_cons, h c (by simp), map_id_of_fixed (fun d hd => h d (by simp [hd]))]

theorem mem_of_getLast?_eq_some {α : Type} :
    ∀ {l : List α} {c : α}, l.getLast? = some c → c ∈ l
  | [], c, h => by simp at h
  | [a], c, h => by
    simp only [List.getLast?_singleton, Option.some.injEq] at h
    simp [h]
  | a :: b :: l, c, h => by
    rw [List.getLast?_cons_cons] at h
    exact List.mem_cons_of_mem a (mem_of_getLast?_eq_some h)

/-! ## sanitize_text: split/join lemmas -/

theorem splitWsAux_words : ∀ (l acc : List Char),
    (∀ c ∈ acc, isPySpace c = false) → ∀ w ∈ splitWsAux l acc, IsWord w
  | [], acc, hacc => by
    simp only [splitWsAux]
    by_cases h0 : acc.isEmpty
    · rw [if_pos h0]
      intro w hw
      simp at hw
    · rw [if_neg h0]
      intro w hw
      rw [List.mem_singleton] at hw
      subst hw
      refine ⟨by simpa [List.isEmpty_iff] using h0, ?_⟩
      intro c hc
      exact hacc c (List.mem_reverse.mp hc)
  | a :: rest, acc, hacc => by
    simp only [splitWsAux]
    by_cases ha : isPySpace a = true
    · rw [if_pos ha]
      by_cases h0 : acc.isEmpty
      · rw [if_pos h0]
        exact splitWsAux_words rest [] (by simp)
      · rw [if_neg h0]
        intro w hw
        rcases List.mem_cons.mp hw with rfl | hw'
        · refine ⟨by simpa [List.isEmpty_iff] using h0, ?_⟩
          intro c hc
          exact hacc c (List.mem_reverse.mp hc)
        · exact splitWsAux_words rest [] (by simp) w hw'
    · rw [if_neg ha]
      refine splitWsAux_words rest (a :: acc) ?_
      intro c hc
      rcases List.mem_cons.mp hc with rfl | hc'
      · exact Bool.eq_false_iff.mpr ha
      · exact hacc c hc'

theorem splitWsAux_chars : ∀ (l acc : List Char), ∀ w ∈ splitWsAux l acc,
    ∀ c ∈ w, c ∈ l ∨ c ∈ acc
  | [], acc => by
    simp only [splitWsAux]
    by_cases h0 : acc.isEmpty
    · rw [if_pos h0]
      intro w hw
      simp at hw
    · rw [if_neg h0]
      intro w hw c hc
      rw [List.mem_singleton] at hw
      subst hw
      exact Or.inr (List.mem_reverse.mp hc)
  | a :: rest, acc => by
    simp only [splitWsAux]
    by_cases ha : isPySpace a = true
    · rw [if_pos ha]
      by_cases h0 : acc.isEmpty
      · rw [if_pos h0]
        intro w hw c hc
        rcases splitWsAux_chars rest [] w hw c hc with h | h
        · exact Or.inl (List.mem_cons_of_mem a h)
        · simp at h
      · rw [if_neg h0]
        intro w hw c hc
        rcases List.mem_cons.mp hw with rfl | hw'
        · exact Or.inr (List.mem_reverse.mp hc)
        · rcases splitWsAux_chars rest [] w hw' c hc with h | h
          · exact Or.inl (List.mem_cons_of_mem a h)
          · simp at h
    · rw [if_neg ha]
      intro w hw c hc
      rcases splitWsAux_chars rest (a :: acc) w hw c hc with h | h
      · exact Or.inl (List.mem_cons_of_mem a h)
      · rcases List.mem_cons.mp h with h'' | h'
        · exact Or.inl (by simp [h''])
        · exact Or.inr h'

theorem splitWsAux_append : ∀ (w l acc : List Char),
    (∀ c ∈ w, isPySpace c = false) →
    splitWsAux (w ++ l) acc = splitWsAux l (w.reverse ++ acc)
  | [], l, acc, _ => by simp
  | c :: w', l, acc, h => by
    have hc : ¬ isPySpace c = true := by
      simp [h c (by simp)]
    simp only [List.cons_append, splitWsAux, if_neg hc]
    show splitWsAux (w' ++ l) (c :: acc) = splitWsAux l ((c :: w').reverse ++ acc)
    rw [splitWsAux_append w' l (c :: acc) (fun d hd => h d (by simp [hd]))]
    simp [List.append_assoc]

theorem splitWsAux_joinSpace : ∀ ws : List (List Char),
    (∀ w ∈ ws, IsWord w) → splitWsAux (joinSpace ws) [] = ws
  | [], _ => rfl
  | [w], h => by
    have hw := h w (by simp)
    have hA := splitWsAux_append w [] [] hw.2
    simp only [List.append_nil] at hA
    rw [show joinSpace [w] = w from rfl, hA]
    simp only [splitWsAux]
    rw [if_neg (by simpa [List.isEmpty_iff, List.reverse_eq_nil_iff] using hw.1)]
    simp
  | w :: w' :: tail, h => by
    have hw := h w (by simp)
    rw [show joinSpace (w :: w' :: tail) = w ++ ' ' :: joinSpace (w' :: tail) from rfl]
    have hA := splitWsAux_append w (' ' :: joinSpace (w' :: tail)) [] hw.2
    simp only [List.append_nil] at hA
    rw [hA]
    simp only [splitWsAux]
    rw [if_pos (by decide)]
    rw [if_neg (by simpa [List.isEmpty_iff, List.reverse_eq_nil_iff] using hw.1)]
    rw [List.reverse_reverse,
      splitWsAux_joinSpace (w' :: tail) (fun v hv => h v (List.mem_cons_of_mem w hv))]

theorem map_joinSpace (f : Char → Char) (hf : f ' ' = ' ') :
    ∀ ws : List (List Char),
      (joinSpace ws).map f = joinSpace (ws.map (List.map f))
  | [] => rfl
  | [w] => rfl
  | w :: w' :: tail => by
    rw [show joinSpace (w :: w' :: tail) = w ++ ' ' :: joinSpace (w' :: tail) from rfl]
    rw [show (w :: w' :: tail).map (List.map f) =
      w.map f :: (w' :: tail).map (List.map f) from rfl]
    have : (w' :: tail).map (List.map f) = w'.map f :: tail.map (List.map f) := rfl
    rw [this,
      show joinSpace (w.map f :: w'.map f :: tail.map (List.map f)) =
        w.map f ++ ' ' :: joinSpace (w'.map f :: tail.map (List.map f)) from rfl]
    rw [List.map_append, List.map_cons, hf, ← this, map_joinSpace f hf (w' :: tail)]

theorem mem_joinSpace : ∀ (ws : List (List Char)) (c : Char),
    c ∈ joinSpace ws → c = ' ' ∨ ∃ w ∈ ws, c ∈ w
  | [], c, h => by simp [joinSpace] at h
  | [w], c, h => Or.inr ⟨w, by simp, h⟩
  | w :: w' :: tail, c, h => by
    rw [show joinSpace (w :: w' :: tail) = w ++ ' ' :: joinSpace (w' :: tail) from rfl] at h
    rcases List.mem_append.mp h with h' | h'
    · exact Or.inr ⟨w, by simp, h'⟩
    · rcases List.mem_cons.mp h' with rfl | h''
      · exact Or.inl rfl
      · rcases mem_joinSpace (w' :: tail) c h'' with h3 | ⟨v, hv, hcv⟩
        · exact Or.inl h3
        · exact Or.inr ⟨v, List.mem_cons_of_mem w hv, hcv⟩

theorem joinSpace_ne_nil (w : List Char) (tail : List (List Char)) (hw : w ≠ []) :
    joinSpace (w :: tail) ≠ [] := by
  cases tail with
  | nil => exact hw
  | cons w' tail' =>
    rw [show joinSpace (w :: w' :: tail') = w ++ ' ' :: joinSpace (w' :: tail') from rfl]
    simp

theorem head?_joinSpace : ∀ ws : List (List Char),
    (∀ w ∈ ws, IsWord w) → ∀ c, (joinSpace ws).head? = some c → isPySpace c = false
  | [], _, c, hc => by simp [joinSpace] at hc
  | [w], h, c, hc => by
    cases w with
    | nil => exact absurd rfl (h [] (by simp)).1
    | cons a w'' =>
      rw [show joinSpace [a :: w''] = a :: w'' from rfl] at hc
      simp only [List.head?_cons, Option.some.injEq] at hc
      exact hc ▸ ((h (a :: w'') (by simp)).2 a (by simp))
  | w :: w' :: tail, h, c, hc => by
    cases w with
    | nil => exact absurd rfl (h [] (by simp)).1
    | cons a w'' =>
      rw [show joinSpace ((a :: w'') :: w' :: tail) =
        (a :: w'') ++ ' ' :: joinSpace (w' :: tail) from rfl] at hc
      simp only [List.cons_append, List.head?_cons, Option.some.injEq] at hc
      exact hc ▸ ((h (a :: w'') (by simp)).2 a (by simp))

theorem getLast?_joinSpace : ∀ ws : List (List Char),
    (∀ w ∈ ws, IsWord w) → ∀ c, (joinSpace ws).getLast? = some c → isPySpace c = false
  | [], _, c, hc => by simp [joinSpace] at hc
  | [w], h, c, hc =>
    (h w (by simp)).2 c (mem_of_getLast?_eq_some hc)
  | w :: w' :: tail, h, c, hc => by
    have hjne : joinSpace (w' :: tail) ≠ [] :=
      joinSpace_ne_nil w' tail (h w' (by simp)).1
    rw [show joinSpace (w :: w' :: tail) = w ++ ' ' :: joinSpace (w' :: tail) from rfl,
      List.getLast?_append] at hc
    cases hj : joinSpace (w' :: tail) with
    | nil => exact absurd hj hjne
    | cons b js =>
      rw [hj, List.getLast?_cons_cons] at hc
      obtain ⟨d, hd⟩ : ∃ d, (b :: js).getLast? = some d :=
        Option.isSome_iff_exists.mp (List.getLast?_isSome.mpr (by simp))
      rw [hd, Option.or_some] at hc
      have hdc : d = c := by injection hc
      rw [← hdc]
      exact getLast?_joinSpace (w' :: tail) (fun v hv => h v (List.mem_cons_of_mem w hv))
        d (by rw [hj, hd])

theorem chain'_word {w : List Char} (h : ∀ c ∈ w, isPySpace c = false) :
    List.Chain' (fun a b => isPySpace a = false ∨ isPySpace b = false) w := by
  induction w with
  | nil => exact List.chain'_nil
  | cons a l ih =>
    rw [List.chain'_cons']
    exact ⟨fun y _ => Or.inl (h a (by simp)),
      ih fun c hc => h c (List.mem_cons_of_mem a hc)⟩

theorem chain'_joinSpace : ∀ ws : List (List Char),
    (∀ w ∈ ws, IsWord w) →
    List.Chain' (fun a b => isPySpace a = false ∨ isPySpace b = false) (joinSpace ws)
  | [], _ => List.chain'_nil
  | [w], h => chain'_word ((h w (by simp)).2)
  | w :: w' :: tail, h => by
    rw [show joinSpace (w :: w' :: tail) = w ++ ' ' :: joinSpace (w' :: tail) from rfl]
    rw [List.chain'_append]
    refine ⟨chain'_word ((h w (by simp)).2), ?_, ?_⟩
    · rw [List.chain'_cons']
      refine ⟨?_, chain'_joinSpace (w' :: tail) (fun v hv => h v (List.mem_cons_of_mem w hv))⟩
      intro y hy
      exact Or.inr (head?_joinSpace (w' :: tail)
        (fun v hv => h v (List.mem_cons_of_mem w hv)) y hy)
    · intro x hx y hy
      exact Or.inl ((h w (by simp)).2 x (mem_of_getLast?_eq_some hx))

/-! ## sanitize_text: assembled facts -/

theorem sanitizeL_eq (l : List Char) :
    sanitizeL l =
      joinSpace ((splitWsAux (removePunctL l) []).map (List.map pyToLower)) := by
  rw [sanitizeL, map_joinSpace pyToLower pyToLower_space]

theorem mapped_words_isWord (l : List Char) :
    ∀ w ∈ (splitWsAux (removePunctL l) []).map (List.map pyToLower), IsWord w := by
  intro w hw
  obtain ⟨w0, hw0, rfl⟩ := List.mem_map.mp hw
  have h0 := splitWsAux_words (removePunctL l) [] (by simp) w0 hw0
  refine ⟨by simpa using h0.1, ?_⟩
  intro c hc
  obtain ⟨c0, hc0, rfl⟩ := List.mem_map.mp hc
  rw [pyToLower_isPySpace]
  exact h0.2 c0 hc0

theorem sanitizeL_chars (l : List Char) (c : Char) (hc : c ∈ sanitizeL l) :
    c = ' ' ∨ (isPySpace c = false ∧ ∃ c0 ∈ removePunctL l, c = pyToLower c0) := by
  rw [sanitizeL] at hc
  obtain ⟨c1, hc1, rfl⟩ := List.mem_map.mp hc
  rcases mem_joinSpace _ c1 hc1 with rfl | ⟨w, hw, hcw⟩
  · exact Or.inl pyToLower_space
  · have hword := splitWsAux_words (removePunctL l) [] (by simp) w hw
    have hsp : isPySpace c1 = false := hword.2 c1 hcw
    rcases splitWsAux_chars (removePunctL l) [] w hw c1 hcw with h | h
    · exact Or.inr ⟨by rw [pyToLower_isPySpace]; exact hsp, ⟨c1, h, rfl⟩⟩
    · simp at h

theorem sanitizeL_no_punct (l : List Char) (c : Char) (hc : c ∈ sanitizeL l) :
    punctuation.contains c = false := by
  rcases sanitizeL_chars l c hc with rfl | ⟨-, c0, hc0, rfl⟩
  · decide
  · exact pyToLower_punct c0 (by simpa using (List.mem_filter.mp hc0).2)

/-! ## Claim theorems: sanitize_text (C6, C7) -/

/-- Claim C6: sanitization is idempotent —
`sanitize_text (sanitize_text x) = sanitize_text x` for every string. -/
theorem sanitize_text_idem (x : String) :
    sanitize_text (sanitize_text x) = sanitize_text x := by
  show (⟨sanitizeL (sanitizeL x.data)⟩ : String) = ⟨sanitizeL x.data⟩
  congr 1
  have h1 : sanitizeL x.data =
      joinSpace ((splitWsAux (removePunctL x.data) []).map (List.map pyToLower)) :=
    sanitizeL_eq x.data
  have hwords := mapped_words_isWord x.data
  have step1 : removePunctL (sanitizeL x.data) = sanitizeL x.data := by
    rw [removePunctL, List.filter_eq_self]
    intro c hc
    simpa using sanitizeL_no_punct x.data c hc
  have step2 : splitWsAux (removePunctL (sanitizeL x.data)) [] =
      (splitWsAux (removePunctL x.data) []).map (List.map pyToLower) := by
    rw [step1, h1]
    exact splitWsAux_joinSpace _ hwords
  rw [show sanitizeL (sanitizeL x.data) =
    (joinSpace (splitWsAux (removePunctL (sanitizeL x.data)) [])).map pyToLower from rfl]
  rw [step2, ← h1]
  apply map_id_of_fixed
  intro c hc
  rcases sanitizeL_chars x.data c hc with rfl | ⟨-, c0, hc0, rfl⟩
  · exact pyToLower_space
  · exact pyToLower_idem c0

/-- Claim C7: `sanitize_text` (total by construction in this embedding)
yields a string with no punctuation characters, no two adjacent
whitespace characters, no leading or trailing whitespace, a single space
as its only whitespace character, and no ASCII uppercase letters; the
empty string maps to the empty string. -/
theorem sanitize_text_spec (x : String) :
    (∀ c ∈ (sanitize_text x).data, punctuation.contains c = false) ∧
    List.Chain' (fun a b => isPySpace a = false ∨ isPySpace b = false)
      (sanitize_text x).data ∧
    (∀ c, (sanitize_text x).data.head? = some c → isPySpace c = false) ∧
    (∀ c, (sanitize_text x).data.getLast? = some c → isPySpace c = false) ∧
    (∀ c ∈ (sanitize_text x).data, isPySpace c = true → c = ' ') ∧
    (∀ c ∈ (sanitize_text x).data, c ∉ asciiUppercase) ∧
    sanitize_text "" = "" := by
  have hdata : (sanitize_text x).data = sanitizeL x.data := rfl
  have hwords := mapped_words_isWord x.data
  have hjoin := sanitizeL_eq x.data
  refine ⟨?_, ?_, ?_, ?_, ?_, ?_, rfl⟩
  · intro c hc
    rw [hdata] at hc
    exact sanitizeL_no_punct x.data c hc
  · rw [hdata, hjoin]
    exact chain'_joinSpace _ hwords
  · intro c hc
    rw [hdata, hjoin] at hc
    exact head?_joinSpace _ hwords c hc
  · intro c hc
    rw [hdata, hjoin] at hc
    exact getLast?_joinSpace _ hwords c hc
  · intro c hc hsp
    rw [hdata] at hc
    rcases sanitizeL_chars x.data c hc with rfl | ⟨hnsp, -⟩
    · rfl
    · rw [hsp] at hnsp
      exact absurd hnsp (by simp)
  · intro c hc
    rw [hdata] at hc
    rcases sanitizeL_chars x.data c hc with rfl | ⟨-, c0, hc0, rfl⟩
    · decide
    · exact pyToLower_notUpper c0

theorem sanitize_text_spec_witness :
    punctuation.contains 'a' = false ∧ isPySpace 'a' = false :=
  ⟨(sanitize_text_spec "A!").1 'a' (by decide),
    (sanitize_text_spec "A!").2.2.1 'a' (by decide)⟩

end FAQBot
